import Mathlib

/-!
Shallow embedding of the `deque` Go package: a generic double-ended queue
backed by a circular buffer (`deque.go`, `iter.go`).

The Go value `Deque[T]{len, head int; backing []T}` is modelled with natural
numbers for `len` and `head` (both are provably non-negative in every reachable
state) and a Lean `List T` for the backing slice.  In the Go code the backing
slice always satisfies `len(backing) == cap(backing)`: it starts `nil` and is
only ever replaced by `grown[:cap(grown)]` (in `Grow`) or `make([]T, d.Len())`
(in `Shrink`), so the capacity is modelled as `backing.length`.

Go's zero value for the element type is modelled by `default` from an
`Inhabited` instance.  Go slice indexing panics when the index is out of
range; in every method of the deque proper, reachable states (captured by the
invariant `Deque.Inv` proved below) keep every computed index in range, so
those reads and writes are modelled with the total `List.getD` / `List.set`.
The `Sortable` adapter's `Less` and `Swap` really can receive out-of-range
indices from callers, so their possible panics are modelled explicitly with
`Option` (`none` = panic).
-/

namespace DequeSpec

structure Deque (T : Type) where
  len : Nat
  head : Nat
  backing : List T
  deriving Repr, DecidableEq

variable {T : Type} [Inhabited T]

/-- `Cap()` returns `cap(d.backing)`, which always equals `len(d.backing)`. -/
def Deque.cap (d : Deque T) : Nat := d.backing.length

/-- `var d Deque[T]`: the zero value, a nil backing slice. -/
def Deque.empty : Deque T := ⟨0, 0, []⟩

/-- Model of the capacity chosen by Go's `append` when it reallocates a full
slice of capacity `oldCap` to hold `needed` elements: `needed` when more than
doubling is required, otherwise doubling (Go's size-class rounding is ignored;
every property proved below uses only `needed ≤ growCap oldCap needed`). -/
def growCap (oldCap needed : Nat) : Nat :=
  if 2 * oldCap < needed then needed else 2 * oldCap

/-- `frontback()`: the front run `backing[head:end]` with
`end = min(head+len, len(backing))`, and the back run `backing[:rest]` with
`rest = len - (end - head)`. -/
def Deque.frontback (d : Deque T) : List T × List T :=
  let e := min (d.head + d.len) d.backing.length
  ((d.backing.drop d.head).take (e - d.head),
   d.backing.take (d.len - (e - d.head)))

/-- Go's builtin `copy(dst, src)`: copies `min(len(dst), len(src))` elements
into the front of `dst`, leaving the rest of `dst` unchanged. -/
def goCopy (dst src : List T) : List T :=
  src.take dst.length ++ dst.drop (min src.length dst.length)

/-- The private method `copy(dst)`: `n := copy(dst, front); copy(dst[n:], back);
head = 0; backing = dst`. -/
def Deque.copyInto (d : Deque T) (dst : List T) : Deque T :=
  let fb := d.frontback
  let n := min fb.1.length dst.length
  let dst1 := goCopy dst fb.1
  let dst2 := dst1.take n ++ goCopy (dst1.drop n) fb.2
  ⟨d.len, 0, dst2⟩

/-- `Grow(n)` for `n ≥ 0`: no-op when `Cap()-len ≥ n` (computed in Go `int`
arithmetic, hence stated over `ℤ`), otherwise reallocate via `append` (which
zero-fills the new slots), reslice to full capacity, and re-linearize. -/
def Deque.grow (d : Deque T) (n : Nat) : Deque T :=
  if (n : ℤ) ≤ (d.cap : ℤ) - (d.len : ℤ) then d
  else
    let newcap := growCap d.backing.length (d.backing.length + n)
    d.copyInto (d.backing ++ List.replicate (newcap - d.backing.length) default)

/-- `PushHead` (a.k.a. `PushFront`): grow by 1, `head--` wrapping below 0 to
`Cap()-1`, then store at the new head slot. -/
def Deque.pushHead (d : Deque T) (t : T) : Deque T :=
  let d1 := d.grow 1
  let h := if d1.head = 0 then d1.cap - 1 else d1.head - 1
  ⟨d1.len + 1, h, d1.backing.set h t⟩

/-- The private method `at(n)`: `-1` when the deque is empty, otherwise
`(head + n) % Cap()` in Go `int` arithmetic (truncated remainder). -/
def Deque.atIndex (d : Deque T) (n : ℤ) : ℤ :=
  if d.len < 1 then -1 else Int.tmod ((d.head : ℤ) + n) (d.cap : ℤ)

/-- The private method `tail()`: `at(len - 1)`. -/
def Deque.tailIndex (d : Deque T) : ℤ := d.atIndex ((d.len : ℤ) - 1)

/-- `PushTail` (a.k.a. `PushBack`): grow by 1, `len++`, store at `tail()`.
The computed tail index is non-negative and in range in every reachable
state (proved below), so the store is modelled with `List.set`. -/
def Deque.pushTail (d : Deque T) (t : T) : Deque T :=
  let d1 := d.grow 1
  let d2 : Deque T := ⟨d1.len + 1, d1.head, d1.backing⟩
  ⟨d2.len, d2.head, d2.backing.set d2.tailIndex.toNat t⟩

/-- `Head()` (a.k.a. `Front()`): `(zero, false)` when empty, else
`(backing[head], true)`. -/
def Deque.front (d : Deque T) : T × Bool :=
  if d.len < 1 then (default, false) else (d.backing.getD d.head default, true)

/-- `Tail()` (a.k.a. `Back()`): `(zero, false)` when empty, else
`(backing[tail()], true)`. -/
def Deque.back (d : Deque T) : T × Bool :=
  if d.len < 1 then (default, false)
  else (d.backing.getD d.tailIndex.toNat default, true)

/-- `At(n)`: `(zero, false)` when `n < 0 || n > len-1` (Go `int` arithmetic),
else `(backing[at(n)], true)`. -/
def Deque.atVal (d : Deque T) (n : ℤ) : T × Bool :=
  if n < 0 ∨ n > (d.len : ℤ) - 1 then (default, false)
  else (d.backing.getD (d.atIndex n).toNat default, true)

/-- `PopHead()` (a.k.a. `RemoveFront()`): returns the pair Go returns and the
deque's state afterwards.  `head++` wraps past `Cap()-1` to 0. -/
def Deque.popHead (d : Deque T) : (T × Bool) × Deque T :=
  if d.len < 1 then ((default, false), d)
  else
    let h := d.front.1
    let newHead := if d.head + 1 ≥ d.cap then 0 else d.head + 1
    ((h, true), ⟨d.len - 1, newHead, d.backing⟩)

/-- `PopTail()` (a.k.a. `RemoveBack()`): `Tail()` then `len--` when found. -/
def Deque.popTail (d : Deque T) : (T × Bool) × Deque T :=
  let tl := d.back
  if tl.2 then ((tl.1, true), ⟨d.len - 1, d.head, d.backing⟩)
  else ((default, false), d)

/-- `Shrink()` (a.k.a. `Clip()`): no-op when `Cap() == Len()`, else copy into
`make([]T, d.Len())`. -/
def Deque.shrink (d : Deque T) : Deque T :=
  if d.cap = d.len then d else d.copyInto (List.replicate d.len default)

/-- `Make[T](cap)`: zero value then `Grow(cap)`. -/
def Deque.make (n : Nat) : Deque T := Deque.empty.grow n

/-- `Of[T](items...)`: zero value, `Grow(len(items))`, then `PushTail` each
item in order. -/
def Deque.ofList (items : List T) : Deque T :=
  items.foldl (fun d t => d.pushTail t) (Deque.empty.grow items.length)

/-- `Items()`: `append(append(nil, front...), back...)`. -/
def Deque.Items (d : Deque T) : List T :=
  d.frontback.1 ++ d.frontback.2

/-- The loop body of `All()`: yields `(i, v)` for `i` counting up, stopping
early if `At` reports not-found (impossible in reachable states).  `fuel` is
the number of remaining iterations of `for i := range d.Len()`. -/
def Deque.allAux (d : Deque T) : Nat → Nat → List (Nat × T)
  | 0, _ => []
  | fuel + 1, i =>
    let p := d.atVal (i : ℤ)
    if p.2 then (i, p.1) :: d.allAux fuel (i + 1) else []

/-- `All()`: the full sequence of `(index, value)` pairs it yields. -/
def Deque.All (d : Deque T) : List (Nat × T) := d.allAux d.len 0

/-- The loop of `Reverse()`: `for i := d.Len() - 1; i >= 0; i--`.  The
argument is one past the current index, so `0` means the loop is over. -/
def Deque.reverseAux (d : Deque T) : Nat → List (Nat × T)
  | 0 => []
  | i + 1 =>
    let p := d.atVal (i : ℤ)
    if p.2 then (i, p.1) :: d.reverseAux i else []

/-- `Reverse()`: the full sequence of `(index, value)` pairs it yields. -/
def Deque.ReverseItems (d : Deque T) : List (Nat × T) := d.reverseAux d.len

/-- `Slice()`: `s := make([]T, d.Len())`, then `s[i] = v` for each pair
yielded by `All()`. -/
def Deque.Slice (d : Deque T) : List T :=
  d.All.foldl (fun s p => s.set p.1 p.2) (List.replicate d.len default)

/-- Go slice read `l[i]` with an `int` index: `none` models the runtime
out-of-range panic. -/
def goIndex (l : List T) (i : ℤ) : Option T :=
  if 0 ≤ i ∧ i < (l.length : ℤ) then some (l.getD i.toNat default) else none

/-- Go slice write `l[i] = t` with an `int` index: `none` models the runtime
out-of-range panic. -/
def goWrite (l : List T) (i : ℤ) (t : T) : Option (List T) :=
  if 0 ≤ i ∧ i < (l.length : ℤ) then some (l.set i.toNat t) else none

/-- `Sortable.Less(i, j)`: `sd.backing[sd.at(i)] < sd.backing[sd.at(j)]`.
`none` models a panic from an out-of-range physical index. -/
def Deque.less [LT T] [DecidableRel (α := T) (· < ·)] (d : Deque T) (i j : ℤ) :
    Option Bool := do
  let a ← goIndex d.backing (d.atIndex i)
  let b ← goIndex d.backing (d.atIndex j)
  pure (decide (a < b))

/-- `Sortable.Swap(i, j)`:
`sd.backing[sd.at(i)], sd.backing[sd.at(j)] = sd.backing[sd.at(j)], sd.backing[sd.at(i)]`.
Go evaluates both right-hand reads before the two writes.  `none` models a
panic from an out-of-range physical index. -/
def Deque.swapAt (d : Deque T) (i j : ℤ) : Option (Deque T) := do
  let vi ← goIndex d.backing (d.atIndex j)
  let vj ← goIndex d.backing (d.atIndex i)
  let b1 ← goWrite d.backing (d.atIndex i) vi
  let b2 ← goWrite b1 (d.atIndex j) vj
  pure ⟨d.len, d.head, b2⟩

/-- The spec's abstraction: the logical sequence of elements is
`backing[(head+i) mod capacity]` for `i` in `[0, length)`. -/
def Deque.logical (d : Deque T) : List T :=
  (List.range d.len).map
    (fun i => d.backing.getD ((d.head + i) % d.backing.length) default)

/-- The reachable-state invariant: `0 ≤ length ≤ capacity` and the head is a
valid physical index (or 0 for a capacity-0 deque). -/
def Deque.Inv (d : Deque T) : Prop :=
  d.len ≤ d.cap ∧ (d.head < d.cap ∨ d.head = 0)

instance (d : Deque T) : Decidable d.Inv := by
  unfold Deque.Inv; infer_instance


/-- The four differential-test operations of the spec's reference-model
property: push or remove at either end. -/
inductive DOp (T : Type) where
  | pushFront (t : T)
  | pushBack (t : T)
  | removeFront
  | removeBack
  deriving Repr, DecidableEq

/-- One step of the doubly-linked-list (functional sequence) reference model:
prepend, append, remove first, remove last. -/
def refStep (l : List T) : DOp T → List T
  | .pushFront t => t :: l
  | .pushBack t => l ++ [t]
  | .removeFront => l.tail
  | .removeBack => l.dropLast

/-- One step of the deque under the same operation alphabet. -/
def dequeStep (d : Deque T) : DOp T → Deque T
  | .pushFront t => d.pushHead t
  | .pushBack t => d.pushTail t
  | .removeFront => d.popHead.2
  | .removeBack => d.popTail.2

/-- Run a sequence of operations on an initially empty deque. -/
def runDeque (ops : List (DOp T)) : Deque T := ops.foldl dequeStep Deque.empty

/-- Run the same sequence on the empty reference list. -/
def runRef (ops : List (DOp T)) : List T := ops.foldl refStep []

/-- The full operation alphabet of the package: pushes, pops, `Grow(n)` and
`Clip` (the constructors `Make`/`Of` are `Grow`/`PushTail` on a zero value,
so sequences starting with `growBy`/pushes cover them). -/
inductive FullOp (T : Type) where
  | pushFront (t : T)
  | pushBack (t : T)
  | removeFront
  | removeBack
  | growBy (n : Nat)
  | clip
  deriving Repr, DecidableEq

/-- One step of the deque under the full alphabet. -/
def fullStep (d : Deque T) : FullOp T → Deque T
  | .pushFront t => d.pushHead t
  | .pushBack t => d.pushTail t
  | .removeFront => d.popHead.2
  | .removeBack => d.popTail.2
  | .growBy n => d.grow n
  | .clip => d.shrink

/-- Run a sequence of full-alphabet operations on an initially empty deque. -/
def runFull (ops : List (FullOp T)) : Deque T := ops.foldl fullStep Deque.empty

/-- A push at either end, used to state `Grow`'s no-reallocation guarantee. -/
inductive PushOp (T : Type) where
  | front (t : T)
  | back (t : T)
  deriving Repr, DecidableEq

def pushStep (d : Deque T) : PushOp T → Deque T
  | .front t => d.pushHead t
  | .back t => d.pushTail t

def applyPushes (d : Deque T) (ps : List (PushOp T)) : Deque T :=
  ps.foldl pushStep d

/-! ### List access helpers

Small `List.getD` bridging lemmas used throughout: the Go code reads slices
at computed indices, and every structural fact below is proved pointwise at
the `getD` level. -/

theorem getD_append_left {α : Type} {l₁ l₂ : List α} {i : Nat} (h : i < l₁.length) (x : α) :
    (l₁ ++ l₂).getD i x = l₁.getD i x := by
  simp [List.getD_eq_getElem?_getD, List.getElem?_append, h]

theorem getD_append_right {α : Type} {l₁ l₂ : List α} {i : Nat} (h : l₁.length ≤ i) (x : α) :
    (l₁ ++ l₂).getD i x = l₂.getD (i - l₁.length) x := by
  simp [List.getD_eq_getElem?_getD, List.getElem?_append, Nat.not_lt.mpr h]

theorem getD_take {α : Type} {l : List α} {n i : Nat} (h : i < n) (x : α) :
    (l.take n).getD i x = l.getD i x := by
  simp [List.getD_eq_getElem?_getD, List.getElem?_take, h]

theorem getD_drop {α : Type} (l : List α) (n i : Nat) (x : α) :
    (l.drop n).getD i x = l.getD (n + i) x := by
  simp [List.getD_eq_getElem?_getD]

theorem getD_set_self {α : Type} {l : List α} {i : Nat} (h : i < l.length) (a x : α) :
    (l.set i a).getD i x = a := by
  simp [List.getD_eq_getElem?_getD, List.getElem?_set_self, h]

theorem getD_set_ne {α : Type} {l : List α} {i j : Nat} (h : i ≠ j) (a x : α) :
    (l.set i a).getD j x = l.getD j x := by
  simp [List.getD_eq_getElem?_getD, List.getElem?_set_ne h]

theorem getD_of_length_le {α : Type} {l : List α} {i : Nat} (h : l.length ≤ i) (x : α) :
    l.getD i x = x := by
  simp [List.getD_eq_getElem?_getD, List.getElem?_eq_none h]

/-- Two lists of the same length agreeing on `getD` at one fixed default are
equal (in-range `getD` returns the actual element). -/
theorem list_eq_of_getD {α : Type} {l₁ l₂ : List α} (x : α) (hlen : l₁.length = l₂.length)
    (h : ∀ i, i < l₁.length → l₁.getD i x = l₂.getD i x) : l₁ = l₂ := by
  apply List.ext_getElem?
  intro i
  by_cases hi : i < l₁.length
  · have h₂ : i < l₂.length := hlen ▸ hi
    have := h i hi
    rw [List.getD_eq_getElem?_getD, List.getD_eq_getElem?_getD,
      List.getElem?_eq_getElem hi, List.getElem?_eq_getElem h₂] at this
    rw [List.getElem?_eq_getElem hi, List.getElem?_eq_getElem h₂]
    simpa using this
  · rw [List.getElem?_eq_none (Nat.le_of_not_lt hi),
      List.getElem?_eq_none (by omega)]

/-- A value below `2*c` reduces mod `c` by at most one subtraction. -/
theorem mod_two_cases {x c : Nat} (h : x < 2 * c) :
    x % c = if x < c then x else x - c := by
  split
  · exact Nat.mod_eq_of_lt ‹_›
  · rw [Nat.mod_eq_sub_mod (Nat.le_of_not_lt ‹_›), Nat.mod_eq_of_lt (by omega)]

theorem length_logical (d : Deque T) : d.logical.length = d.len := by
  simp [Deque.logical]

theorem logical_getD (d : Deque T) {i : Nat} (h : i < d.len) :
    d.logical.getD i default =
      d.backing.getD ((d.head + i) % d.backing.length) default := by
  unfold Deque.logical
  rw [List.getD_eq_getElem?_getD,
    List.getElem?_eq_getElem (by simpa using h)]
  simp

/-! ### Structural lemmas: rotation form, Items, copyInto -/

/-- Under the invariant, the spec's modular abstraction is: rotate the backing
array left by `head`, then take the first `len` elements. -/
theorem logical_eq_rotTake (d : Deque T) (hd : d.Inv) :
    d.logical = (d.backing.drop d.head ++ d.backing.take d.head).take d.len := by
  obtain ⟨hlen, hhead⟩ := hd
  have hcap : d.len ≤ d.backing.length := hlen
  apply list_eq_of_getD default
  · rw [length_logical]
    simp only [List.length_take, List.length_append, List.length_drop]
    omega
  · intro i hi
    rw [length_logical] at hi
    have hh : d.head < d.backing.length := by
      rcases hhead with h | h
      · exact h
      · omega
    rw [logical_getD d hi, getD_take hi]
    by_cases hlt : d.head + i < d.backing.length
    · rw [Nat.mod_eq_of_lt hlt,
        getD_append_left (by rw [List.length_drop]; omega),
        getD_drop]
    · have h2 : (d.head + i) % d.backing.length = d.head + i - d.backing.length := by
        rw [mod_two_cases (by omega)]
        simp [hlt]
      rw [h2, getD_append_right (by rw [List.length_drop]; omega)]
      rw [List.length_drop]
      rw [getD_take (by omega)]
      congr 1
      omega

omit [Inhabited T] in
theorem Items_eq_rotTake (d : Deque T) (hd : d.Inv) :
    d.Items = (d.backing.drop d.head ++ d.backing.take d.head).take d.len := by
  obtain ⟨hlen, hhead⟩ := hd
  have hcap : d.len ≤ d.backing.length := hlen
  have hh : d.head ≤ d.backing.length := by
    rcases hhead with h | h
    · exact Nat.le_of_lt h
    · omega
  unfold Deque.Items Deque.frontback
  rw [List.take_append_eq_append_take]
  by_cases hc : d.head + d.len ≤ d.backing.length
  · have he : min (d.head + d.len) d.backing.length = d.head + d.len := by omega
    simp only [he]
    have h3 : d.len - (d.backing.drop d.head).length = 0 := by
      rw [List.length_drop]; omega
    simp [h3]
    omega
  · have he : min (d.head + d.len) d.backing.length = d.backing.length := by omega
    simp only [he]
    have h1 : (d.backing.drop d.head).take (d.backing.length - d.head) =
        d.backing.drop d.head := by
      apply List.take_of_length_le
      rw [List.length_drop]
    have h2 : (d.backing.drop d.head).take d.len = d.backing.drop d.head := by
      apply List.take_of_length_le
      rw [List.length_drop]; omega
    rw [h1, h2, List.length_drop]
    congr 1
    rw [List.take_take]
    congr 1
    omega

theorem Items_eq_logical (d : Deque T) (hd : d.Inv) : d.Items = d.logical := by
  rw [Items_eq_rotTake d hd, logical_eq_rotTake d hd]

theorem length_Items (d : Deque T) (hd : d.Inv) : d.Items.length = d.len := by
  rw [Items_eq_logical d hd, length_logical]

omit [Inhabited T] in
theorem copyInto_eq (d : Deque T) (dst : List T) (hd : d.Inv)
    (h : d.len ≤ dst.length) :
    d.copyInto dst = ⟨d.len, 0, d.Items ++ dst.drop d.len⟩ := by
  have hsum : d.frontback.1.length + d.frontback.2.length = d.len := by
    obtain ⟨hlen, hhead⟩ := hd
    have hcap : d.len ≤ d.backing.length := hlen
    have hh : d.head ≤ d.backing.length := by
      rcases hhead with h' | h'
      · exact Nat.le_of_lt h'
      · omega
    simp only [Deque.frontback, List.length_take, List.length_drop]
    omega
  have hFle : d.frontback.1.length ≤ dst.length := by omega
  unfold Deque.copyInto goCopy Deque.Items
  simp only [min_eq_left hFle]
  rw [List.take_of_length_le hFle]
  rw [List.take_left, List.drop_left, List.length_drop]
  have hB : d.frontback.2.length ≤ dst.length - d.frontback.1.length := by omega
  rw [List.take_of_length_le hB, min_eq_left hB, List.drop_drop, hsum,
    ← List.append_assoc]


/-! ### Grow and index arithmetic -/

omit [Inhabited T] in
theorem growCap_ge (c n : Nat) : n ≤ growCap c n := by
  unfold growCap
  split <;> omega

/-- `Grow(n)` preserves the invariant and the logical contents, leaves the
length alone, guarantees free capacity at least `n`, never shrinks the
capacity, and either does nothing or resets the head to 0. -/
theorem grow_spec (d : Deque T) (n : Nat) (hd : d.Inv) :
    (d.grow n).Inv ∧ (d.grow n).len = d.len ∧ (d.grow n).logical = d.logical ∧
      d.len + n ≤ (d.grow n).cap ∧ d.cap ≤ (d.grow n).cap ∧
      (d.grow n = d ∨ (d.grow n).head = 0) := by
  unfold Deque.grow
  split
  · rename_i hle
    exact ⟨hd, rfl, rfl, by omega, le_refl _, Or.inl rfl⟩
  · rename_i hgt
    have hlen : d.len ≤ d.cap := hd.1
    have hge : d.backing.length + n ≤
        growCap d.backing.length (d.backing.length + n) := growCap_ge _ _
    have hcapb : d.cap = d.backing.length := rfl
    set dst := d.backing ++ List.replicate
      (growCap d.backing.length (d.backing.length + n) - d.backing.length)
      default with hdst
    have hdlen : dst.length = growCap d.backing.length (d.backing.length + n) := by
      rw [hdst]
      simp
      omega
    rw [copyInto_eq d dst hd (by omega)]
    have hIlen : d.Items.length = d.len := length_Items d hd
    have hblen : (d.Items ++ dst.drop d.len).length = dst.length := by
      simp
      omega
    have hinv2 : (⟨d.len, 0, d.Items ++ dst.drop d.len⟩ : Deque T).Inv := by
      constructor
      · show d.len ≤ (d.Items ++ dst.drop d.len).length
        rw [hblen]
        omega
      · exact Or.inr rfl
    refine ⟨hinv2, rfl, ?_, ?_, ?_, Or.inr rfl⟩
    · rw [logical_eq_rotTake _ hinv2]
      show ((d.Items ++ dst.drop d.len).drop 0 ++
        (d.Items ++ dst.drop d.len).take 0).take d.len = _
      rw [List.drop_zero, List.take_zero, List.append_nil,
        List.take_append_eq_append_take, List.take_of_length_le (by omega),
        hIlen, Nat.sub_self, List.take_zero, List.append_nil,
        Items_eq_logical d hd]
    · show d.len + n ≤ (d.Items ++ dst.drop d.len).length
      rw [hblen]
      omega
    · show d.cap ≤ (d.Items ++ dst.drop d.len).length
      rw [hblen]
      omega

/-- When there is already room for `n` more elements, `Grow(n)` is a no-op. -/
theorem grow_eq_of_le (d : Deque T) (n : Nat) (h : d.len + n ≤ d.cap) :
    d.grow n = d := by
  unfold Deque.grow
  rw [if_pos (by omega)]

omit [Inhabited T] in
/-- Physical head positions are injective on `[0, c)` offsets. -/
theorem head_mod_inj {hd c i j : Nat} (hhd : hd < c ∨ hd = 0) (hi : i < c)
    (hj : j < c) (h : (hd + i) % c = (hd + j) % c) : i = j := by
  have hc : 0 < c := by omega
  have hd' : hd < c := by omega
  have h1 := mod_two_cases (x := hd + i) (c := c) (by omega)
  have h2 := mod_two_cases (x := hd + j) (c := c) (by omega)
  rw [h1, h2] at h
  split at h <;> split at h <;> omega

omit [Inhabited T] in
/-- `at(n)` for a non-negative argument on a non-empty deque is plain
natural-number modular arithmetic. -/
theorem atIndex_eq (d : Deque T) (n : Nat) (hlen : 1 ≤ d.len) :
    d.atIndex (n : ℤ) = (((d.head + n) % d.cap : Nat) : ℤ) := by
  unfold Deque.atIndex
  rw [if_neg (by omega), Int.tmod_eq_emod (by positivity) (by exact_mod_cast Nat.zero_le _)]
  push_cast
  ring_nf

omit [Inhabited T] in
theorem atIndex_toNat (d : Deque T) (n : Nat) (hlen : 1 ≤ d.len) :
    (d.atIndex (n : ℤ)).toNat = (d.head + n) % d.cap := by
  rw [atIndex_eq d n hlen]
  exact Int.toNat_natCast _

omit [Inhabited T] in
theorem tailIndex_toNat (d : Deque T) (hlen : 1 ≤ d.len) :
    d.tailIndex.toNat = (d.head + (d.len - 1)) % d.cap := by
  unfold Deque.tailIndex
  have h : ((d.len : ℤ) - 1) = ((d.len - 1 : Nat) : ℤ) := by omega
  rw [h, atIndex_toNat d (d.len - 1) hlen]


/-! ### Push and pop -/

/-- `PushTail` appends the element at the end of the logical sequence. -/
theorem pushTail_spec (d : Deque T) (t : T) (hd : d.Inv) :
    (d.pushTail t).Inv ∧ (d.pushTail t).len = d.len + 1 ∧
      (d.pushTail t).logical = d.logical ++ [t] ∧ d.cap ≤ (d.pushTail t).cap := by
  obtain ⟨hInv1, hlen1, hlog1, hfree1, hcaple1, -⟩ := grow_spec d 1 hd
  unfold Deque.pushTail
  set d1 := d.grow 1 with hd1
  set d2 : Deque T := ⟨d1.len + 1, d1.head, d1.backing⟩ with hd2
  have hcpos : 0 < d1.cap := by omega
  have hk : d2.tailIndex.toNat = (d1.head + d1.len) % d1.cap := by
    rw [tailIndex_toNat d2 (by rw [hd2]; exact Nat.le_add_left 1 _)]
    show (d2.head + (d1.len + 1 - 1)) % d2.cap = _
    rfl
  set k := (d1.head + d1.len) % d1.cap with hkdef
  have hklt : k < d1.cap := Nat.mod_lt _ hcpos
  have hhead1 : d1.head < d1.cap ∨ d1.head = 0 := hInv1.2
  have hset : (⟨d2.len, d2.head, d2.backing.set d2.tailIndex.toNat t⟩ : Deque T) =
      ⟨d1.len + 1, d1.head, d1.backing.set k t⟩ := by
    rw [hk]
  rw [hset]
  refine ⟨⟨?_, ?_⟩, ?_, ?_, ?_⟩
  · show d1.len + 1 ≤ (d1.backing.set k t).length
    simp only [List.length_set]
    simp only [Deque.cap] at hfree1 hlen1
    omega
  · show d1.head < (d1.backing.set k t).length ∨ d1.head = 0
    simpa using hhead1
  · show d1.len + 1 = d.len + 1
    omega
  · -- logical contents
    apply list_eq_of_getD default
    · show (⟨d1.len + 1, d1.head, d1.backing.set k t⟩ : Deque T).logical.length = _
      rw [length_logical]
      show d1.len + 1 = _
      simp [length_logical, hlen1]
    · intro i hi
      have hi' : i < d1.len + 1 := by
        rw [length_logical] at hi
        exact hi
      rw [logical_getD _ hi']
      show (d1.backing.set k t).getD
          ((d1.head + i) % (d1.backing.set k t).length) default = _
      rw [List.length_set]
      show (d1.backing.set k t).getD ((d1.head + i) % d1.cap) default = _
      have hicap : i < d1.cap := by omega
      have hlencap : d1.len < d1.cap := by omega
      by_cases hit : i = d1.len
      · subst hit
        rw [← hkdef, getD_set_self (by simpa [Deque.cap] using hklt) t default,
          getD_append_right (by rw [length_logical]; omega), length_logical,
          hlen1, Nat.sub_self]
        rfl
      · have hne : k ≠ (d1.head + i) % d1.cap := by
          intro heq
        
          have heq2 : (d1.head + d1.len) % d1.cap = (d1.head + i) % d1.cap := by
            rw [← hkdef]
            exact heq
          exact hit (head_mod_inj hhead1 hlencap hicap heq2).symm
        rw [getD_set_ne hne t default]
        have hilen : i < d1.len := by omega
        show d1.backing.getD ((d1.head + i) % d1.backing.length) default = _
        rw [← logical_getD d1 hilen, hlog1,
          getD_append_left (by rw [length_logical]; omega)]
  · show d.cap ≤ (d1.backing.set k t).length
    simpa [Deque.cap] using hcaple1


/-- `PushHead` prepends the element at the front of the logical sequence. -/
theorem pushHead_spec (d : Deque T) (t : T) (hd : d.Inv) :
    (d.pushHead t).Inv ∧ (d.pushHead t).len = d.len + 1 ∧
      (d.pushHead t).logical = t :: d.logical ∧ d.cap ≤ (d.pushHead t).cap := by
  obtain ⟨hInv1, hlen1, hlog1, hfree1, hcaple1, -⟩ := grow_spec d 1 hd
  unfold Deque.pushHead
  set d1 := d.grow 1 with hd1
  have hcpos : 0 < d1.cap := by omega
  have hhead1 : d1.head < d1.cap ∨ d1.head = 0 := hInv1.2
  set h := if d1.head = 0 then d1.cap - 1 else d1.head - 1 with hhdef
  have hhlt : h < d1.cap := by
    rw [hhdef]
    split <;> omega
  refine ⟨⟨?_, ?_⟩, ?_, ?_, ?_⟩
  · show d1.len + 1 ≤ (d1.backing.set h t).length
    simp only [List.length_set]
    simp only [Deque.cap] at hfree1 hlen1
    omega
  · show h < (d1.backing.set h t).length ∨ h = 0
    left
    simpa [Deque.cap] using hhlt
  · show d1.len + 1 = d.len + 1
    omega
  · -- logical contents
    apply list_eq_of_getD default
    · show (⟨d1.len + 1, h, d1.backing.set h t⟩ : Deque T).logical.length = _
      rw [length_logical]
      show d1.len + 1 = _
      simp [length_logical, hlen1]
    · intro i hi
      have hi' : i < d1.len + 1 := by
        rw [length_logical] at hi
        exact hi
      rw [logical_getD _ hi']
      show (d1.backing.set h t).getD
          ((h + i) % (d1.backing.set h t).length) default = _
      rw [List.length_set]
      show (d1.backing.set h t).getD ((h + i) % d1.cap) default = _
      match i, hi' with
      | 0, _ =>
        rw [Nat.add_zero, Nat.mod_eq_of_lt hhlt,
          getD_set_self (by simpa [Deque.cap] using hhlt) t default]
        rfl
      | j + 1, hj =>
        have hjlen : j < d1.len := by omega
        have hjcap : j < d1.cap := by omega
        have hshift : (h + (j + 1)) % d1.cap = (d1.head + j) % d1.cap := by
          rw [hhdef]
          rcases Nat.eq_zero_or_pos d1.head with h0 | h0
          · rw [if_pos h0, h0]
            have : d1.cap - 1 + (j + 1) = d1.cap + j := by omega
            rw [this, Nat.add_mod_left, Nat.zero_add]
          · rw [if_neg (by omega)]
            congr 1
            omega
        rw [hshift]
        have hne : h ≠ (d1.head + j) % d1.cap := by
          intro heq
          have heq2 : (h + 0) % d1.cap = (h + (j + 1)) % d1.cap := by
            rw [hshift, Nat.add_zero, Nat.mod_eq_of_lt hhlt]
            exact heq
          have := head_mod_inj (Or.inl hhlt) hcpos (by omega) heq2
          omega
        rw [getD_set_ne hne t default]
        show d1.backing.getD ((d1.head + j) % d1.backing.length) default = _
        rw [← logical_getD d1 hjlen, hlog1]
        rfl
  · show d.cap ≤ (d1.backing.set h t).length
    simpa [Deque.cap] using hcaple1


/-- `PopHead` on an empty deque: zero value, `false`, state untouched. -/
theorem popHead_empty (d : Deque T) (h : d.len = 0) :
    d.popHead = ((default, false), d) := by
  unfold Deque.popHead
  rw [if_pos (by omega)]

/-- `PopTail` on an empty deque: zero value, `false`, state untouched. -/
theorem popTail_empty (d : Deque T) (h : d.len = 0) :
    d.popTail = ((default, false), d) := by
  unfold Deque.popTail Deque.back
  rw [if_pos (show d.len < 1 by omega)]
  rfl

/-- `Head()/Front()` returns the first logical element when non-empty. -/
theorem front_spec (d : Deque T) (hd : d.Inv) (h : 1 ≤ d.len) :
    d.front = (d.logical.getD 0 default, true) := by
  have hcap : 0 < d.cap := by
    have := hd.1
    omega
  have hh : d.head < d.cap := by
    rcases hd.2 with h' | h' <;> omega
  unfold Deque.front
  rw [if_neg (by omega)]
  rw [logical_getD d h]
  have hh2 : d.head < d.backing.length := hh
  rw [Nat.add_zero, Nat.mod_eq_of_lt hh2]

/-- `Tail()/Back()` returns the last logical element when non-empty. -/
theorem back_spec (d : Deque T) (hd : d.Inv) (h : 1 ≤ d.len) :
    d.back = (d.logical.getD (d.len - 1) default, true) := by
  have hcap : 0 < d.cap := by
    have := hd.1
    omega
  unfold Deque.back
  rw [if_neg (by omega), tailIndex_toNat d h,
    logical_getD d (by omega : d.len - 1 < d.len)]
  rfl

/-- `PopHead` on a non-empty deque returns the first logical element and the
rest of the deque. -/
theorem popHead_spec (d : Deque T) (hd : d.Inv) (h : 1 ≤ d.len) :
    (d.popHead).1 = (d.logical.getD 0 default, true) ∧
      (d.popHead).2.Inv ∧ (d.popHead).2.len = d.len - 1 ∧
      (d.popHead).2.logical = d.logical.tail ∧ (d.popHead).2.cap = d.cap := by
  have hcap : 0 < d.cap := by
    have := hd.1
    omega
  have hh : d.head < d.cap := by
    rcases hd.2 with h' | h' <;> omega
  unfold Deque.popHead
  rw [if_neg (by omega)]
  have hfront := front_spec d hd h
  set newHead := if d.head + 1 ≥ d.cap then 0 else d.head + 1 with hnh
  have hnhlt : newHead < d.cap := by
    rw [hnh]
    split <;> omega
  refine ⟨by rw [hfront], ⟨?_, ?_⟩, rfl, ?_, rfl⟩
  · show d.len - 1 ≤ d.backing.length
    have := hd.1
    simp only [Deque.cap] at this
    omega
  · show newHead < d.backing.length ∨ newHead = 0
    left
    simpa [Deque.cap] using hnhlt
  · apply list_eq_of_getD default
    · show (⟨d.len - 1, newHead, d.backing⟩ : Deque T).logical.length = _
      rw [length_logical, List.length_tail, length_logical]
    · intro i hi
      have hi' : i < d.len - 1 := by
        rw [length_logical] at hi
        exact hi
      rw [logical_getD _ hi']
      show d.backing.getD ((newHead + i) % d.cap) default = _
      have hshift : (newHead + i) % d.cap = (d.head + (1 + i)) % d.cap := by
        rw [hnh]
        by_cases hc : d.head + 1 ≥ d.cap
        · rw [if_pos hc]
          have he : d.head + 1 = d.cap := by omega
          have : d.head + (1 + i) = d.cap + i := by omega
          rw [this, Nat.add_mod_left, Nat.zero_add]
        · rw [if_neg hc]
          congr 1
          omega
      rw [hshift]
      show d.backing.getD ((d.head + (1 + i)) % d.backing.length) default = _
      rw [← logical_getD d (by omega : 1 + i < d.len), ← List.drop_one,
        getD_drop]

/-- `PopTail` on a non-empty deque returns the last logical element and the
deque without it. -/
theorem popTail_spec (d : Deque T) (hd : d.Inv) (h : 1 ≤ d.len) :
    (d.popTail).1 = (d.logical.getD (d.len - 1) default, true) ∧
      (d.popTail).2.Inv ∧ (d.popTail).2.len = d.len - 1 ∧
      (d.popTail).2.logical = d.logical.dropLast ∧ (d.popTail).2.cap = d.cap := by
  unfold Deque.popTail
  rw [back_spec d hd h]
  refine ⟨rfl, ⟨?_, ?_⟩, rfl, ?_, rfl⟩
  · show d.len - 1 ≤ d.backing.length
    have := hd.1
    simp only [Deque.cap] at this
    omega
  · exact hd.2
  · apply list_eq_of_getD default
    · show (⟨d.len - 1, d.head, d.backing⟩ : Deque T).logical.length = _
      rw [length_logical, List.length_dropLast, length_logical]
    · intro i hi
      have hi' : i < d.len - 1 := by
        rw [length_logical] at hi
        exact hi
      rw [logical_getD _ hi']
      show d.backing.getD ((d.head + i) % d.backing.length) default = _
      rw [← logical_getD d (by omega : i < d.len), List.dropLast_eq_take,
        getD_take (by rw [length_logical]; omega)]


/-! ### Shrink, At, Of -/

/-- A deque whose capacity already equals its length is untouched by
`Shrink`. -/
theorem shrink_of_cap_eq (d : Deque T) (h : d.cap = d.len) : d.shrink = d := by
  unfold Deque.shrink
  rw [if_pos h]

/-- `Shrink`/`Clip` reduces the capacity to exactly the length and preserves
the length and logical contents. -/
theorem shrink_spec (d : Deque T) (hd : d.Inv) :
    (d.shrink).Inv ∧ (d.shrink).len = d.len ∧ (d.shrink).cap = d.len ∧
      (d.shrink).logical = d.logical := by
  unfold Deque.shrink
  split
  · rename_i hceq
    exact ⟨hd, rfl, hceq, rfl⟩
  · rename_i hcne
    have hrep : (List.replicate d.len (default : T)).length = d.len := by simp
    rw [copyInto_eq d _ hd (by rw [hrep])]
    have hIlen : d.Items.length = d.len := length_Items d hd
    have hdrop : (List.replicate d.len (default : T)).drop d.len = [] := by
      simp
    rw [hdrop, List.append_nil]
    have hinv2 : (⟨d.len, 0, d.Items⟩ : Deque T).Inv := by
      constructor
      · show d.len ≤ d.Items.length
        omega
      · exact Or.inr rfl
    refine ⟨hinv2, rfl, hIlen, ?_⟩
    rw [logical_eq_rotTake _ hinv2]
    show (d.Items.drop 0 ++ d.Items.take 0).take d.len = _
    rw [List.drop_zero, List.take_zero, List.append_nil,
      List.take_of_length_le (by omega), Items_eq_logical d hd]

/-- `At(n)` in terms of the logical sequence: the found flag is true exactly
for `0 ≤ n < len`, and then the value is the element at logical index `n`. -/
theorem atVal_spec (d : Deque T) (n : ℤ) :
    d.atVal n = if 0 ≤ n ∧ n < (d.len : ℤ) then
      (d.logical.getD n.toNat default, true) else (default, false) := by
  unfold Deque.atVal
  by_cases hin : 0 ≤ n ∧ n < (d.len : ℤ)
  · rw [if_neg (by omega), if_pos hin]
    have hlen1 : 1 ≤ d.len := by omega
    have h1 : d.atIndex n = d.atIndex ((n.toNat : Nat) : ℤ) := by
      congr 1
      omega
    rw [h1, atIndex_toNat d n.toNat hlen1,
      logical_getD d (by omega : n.toNat < d.len)]
    rfl
  · rw [if_pos (by omega), if_neg hin]

omit [Inhabited T] in
/-- The physical index computed by `At(n)` for an in-range `n` is a valid
index into the backing array (so the read cannot panic). -/
theorem atIndex_in_range (d : Deque T) (hd : d.Inv) (n : ℤ) (h1 : 0 ≤ n)
    (h2 : n < (d.len : ℤ)) :
    0 ≤ d.atIndex n ∧ d.atIndex n < (d.cap : ℤ) := by
  have hlen1 : 1 ≤ d.len := by omega
  have hcap : 0 < d.cap := by
    have := hd.1
    omega
  have hnn : n = ((n.toNat : Nat) : ℤ) := by omega
  rw [hnn, atIndex_eq d n.toNat hlen1]
  have := Nat.mod_lt (d.head + n.toNat) hcap
  omega

omit [Inhabited T] in
theorem empty_Inv : (Deque.empty : Deque T).Inv := by
  constructor
  · exact le_refl 0
  · exact Or.inr rfl

theorem logical_empty : (Deque.empty : Deque T).logical = [] := rfl

/-- Pushing a list of items at the tail appends it to the logical
sequence. -/
theorem foldl_pushTail (items : List T) : ∀ d : Deque T, d.Inv →
    (items.foldl (fun d t => d.pushTail t) d).Inv ∧
      (items.foldl (fun d t => d.pushTail t) d).logical = d.logical ++ items := by
  induction items with
  | nil =>
    intro d hd
    exact ⟨hd, by simp⟩
  | cons x xs ih =>
    intro d hd
    obtain ⟨hinv, hlen, hlog, -⟩ := pushTail_spec d x hd
    simp only [List.foldl_cons]
    obtain ⟨h1, h2⟩ := ih (d.pushTail x) hinv
    refine ⟨h1, ?_⟩
    rw [h2, hlog]
    simp

/-- `Of(items...)` builds a deque whose logical contents are exactly
`items`. -/
theorem ofList_spec (items : List T) :
    (Deque.ofList items).Inv ∧ (Deque.ofList items).logical = items := by
  unfold Deque.ofList
  obtain ⟨hinv, hlen, hlog, -, -, -⟩ :=
    grow_spec (Deque.empty : Deque T) items.length empty_Inv
  obtain ⟨h1, h2⟩ := foldl_pushTail items _ hinv
  refine ⟨h1, ?_⟩
  rw [h2, hlog, logical_empty, List.nil_append]


/-! ### Traversal and Slice -/

/-- The `All()` loop yields `(j, logical[j])` for `j = i, i+1, ...` as long as
fuel and the length allow. -/
theorem allAux_spec (d : Deque T) : ∀ fuel i, i + fuel ≤ d.len →
    d.allAux fuel i =
      (List.range' i fuel).map (fun j => (j, d.logical.getD j default)) := by
  intro fuel
  induction fuel with
  | zero =>
    intro i h
    simp [Deque.allAux]
  | succ n ih =>
    intro i h
    have hin : (0 : ℤ) ≤ (i : ℤ) ∧ (i : ℤ) < (d.len : ℤ) := by
      constructor <;> [positivity; exact_mod_cast (by omega : i < d.len)]
    simp only [Deque.allAux]
    rw [atVal_spec d (i : ℤ), if_pos hin]
    simp only [Int.toNat_natCast]
    rw [List.range'_succ, List.map_cons]
    show (i, d.logical.getD i default) :: d.allAux n (i + 1) = _
    congr 1
    exact ih (i + 1) (by omega)

/-- `All()` yields exactly the pairs `(j, logical[j])` for `j = 0..len-1`. -/
theorem All_spec (d : Deque T) :
    d.All = (List.range d.len).map (fun j => (j, d.logical.getD j default)) := by
  unfold Deque.All
  rw [allAux_spec d d.len 0 (by omega), List.range_eq_range']

/-- The `Reverse()` loop yields `(j, logical[j])` for `j = i-1` down to 0. -/
theorem reverseAux_spec (d : Deque T) : ∀ i, i ≤ d.len →
    d.reverseAux i =
      (List.range i).reverse.map (fun j => (j, d.logical.getD j default)) := by
  intro i
  induction i with
  | zero =>
    intro h
    simp [Deque.reverseAux]
  | succ n ih =>
    intro h
    have hin : (0 : ℤ) ≤ (n : ℤ) ∧ (n : ℤ) < (d.len : ℤ) := by
      constructor <;> [positivity; exact_mod_cast (by omega : n < d.len)]
    simp only [Deque.reverseAux]
    rw [atVal_spec d (n : ℤ), if_pos hin]
    simp only [Int.toNat_natCast]
    rw [List.range_succ, List.reverse_append]
    show (n, d.logical.getD n default) :: d.reverseAux n = _
    simp only [List.reverse_cons, List.reverse_nil, List.nil_append,
      List.singleton_append, List.map_cons]
    congr 1
    exact ih (by omega)

/-- `Reverse()` yields exactly the pairs of `All()` in reverse order. -/
theorem ReverseItems_spec (d : Deque T) :
    d.ReverseItems =
      ((List.range d.len).map (fun j => (j, d.logical.getD j default))).reverse := by
  unfold Deque.ReverseItems
  rw [reverseAux_spec d d.len (le_refl _), List.map_reverse]

omit [Inhabited T] in
omit [Inhabited T] in
/-- Filling a zero-initialised slice by the `for i, v := range All()` loop. -/
theorem foldl_set_fill (f : Nat → T) (s : List T) :
    ∀ n, n ≤ s.length →
      ((List.range n).map (fun j => (j, f j))).foldl
          (fun acc p => acc.set p.1 p.2) s =
        (List.range n).map f ++ s.drop n := by
  intro n
  induction n with
  | zero => simp
  | succ m ih =>
    intro h
    rw [List.range_succ, List.map_append, List.foldl_append, ih (by omega)]
    simp only [List.map_cons, List.map_nil, List.foldl_cons, List.foldl_nil]
    rw [List.set_append_right _ _ (by simp)]
    simp only [List.length_map, List.length_range, Nat.sub_self]
    rw [List.drop_eq_getElem_cons (by omega : m < s.length), List.set_cons_zero]
    simp

theorem map_getD_range (l : List T) :
    (List.range l.length).map (fun j => l.getD j default) = l := by
  apply list_eq_of_getD default
  · simp
  · intro i hi
    simp only [List.length_map, List.length_range] at hi
    rw [List.getD_eq_getElem?_getD, List.getElem?_eq_getElem (by simpa using hi)]
    simp [hi]

/-- `Slice()` returns the logical contents. -/
theorem Slice_eq (d : Deque T) : d.Slice = d.logical := by
  unfold Deque.Slice
  rw [All_spec d,
    foldl_set_fill (fun j => d.logical.getD j default) _ d.len (by simp)]
  simp only [List.drop_replicate, Nat.sub_self, List.replicate_zero,
    List.append_nil]
  rw [← length_logical d, map_getD_range]


/-! ### The sortable adapter's swap -/

/-- Go slice read at a valid natural index. -/
theorem goIndex_nat (l : List T) (p : Nat) (h : p < l.length) :
    goIndex l (p : ℤ) = some (l.getD p default) := by
  unfold goIndex
  rw [if_pos ⟨by positivity, by exact_mod_cast h⟩]
  rw [Int.toNat_natCast]

omit [Inhabited T] in
/-- Go slice write at a valid natural index. -/
theorem goWrite_nat (l : List T) (p : Nat) (t : T) (h : p < l.length) :
    goWrite l (p : ℤ) t = some (l.set p t) := by
  unfold goWrite
  rw [if_pos ⟨by positivity, by exact_mod_cast h⟩]
  rw [Int.toNat_natCast]

/-- `Sortable.Swap(i, j)` with both indices in `[0, len)` succeeds and
exchanges the two logical elements, leaving length, capacity, head and all
other logical elements unchanged. -/
theorem swapAt_spec (d : Deque T) (hd : d.Inv) (i j : Nat)
    (hi : i < d.len) (hj : j < d.len) :
    ∃ d' : Deque T, d.swapAt (i : ℤ) (j : ℤ) = some d' ∧ d'.len = d.len ∧
      d'.cap = d.cap ∧ d'.head = d.head ∧
      d'.logical.getD i default = d.logical.getD j default ∧
      d'.logical.getD j default = d.logical.getD i default ∧
      ∀ k, k < d.len → k ≠ i → k ≠ j →
        d'.logical.getD k default = d.logical.getD k default := by
  have hlen1 : 1 ≤ d.len := by omega
  have hcap : 0 < d.cap := by
    have := hd.1
    omega
  have hhead : d.head < d.cap ∨ d.head = 0 := hd.2
  have hlencap : d.len ≤ d.cap := hd.1
  set pi := (d.head + i) % d.cap with hpi
  set pj := (d.head + j) % d.cap with hpj
  have hpilt : pi < d.cap := Nat.mod_lt _ hcap
  have hpjlt : pj < d.cap := Nat.mod_lt _ hcap
  have hpib : pi < d.backing.length := hpilt
  have hpjb : pj < d.backing.length := hpjlt
  have hai : d.atIndex (i : ℤ) = ((pi : Nat) : ℤ) := atIndex_eq d i hlen1
  have haj : d.atIndex (j : ℤ) = ((pj : Nat) : ℤ) := atIndex_eq d j hlen1
  set b2 := (d.backing.set pi (d.backing.getD pj default)).set pj
    (d.backing.getD pi default) with hb2
  have hstep1 : d.swapAt (i : ℤ) (j : ℤ) =
      Option.bind (goWrite d.backing ((pi : Nat) : ℤ) (d.backing.getD pj default))
        (fun b1 => Option.bind (goWrite b1 ((pj : Nat) : ℤ) (d.backing.getD pi default))
          (fun b2 => some ⟨d.len, d.head, b2⟩)) := by
    unfold Deque.swapAt
    rw [hai, haj, goIndex_nat d.backing pj hpjb, goIndex_nat d.backing pi hpib]
    exact rfl
  have hstep2 : goWrite d.backing ((pi : Nat) : ℤ) (d.backing.getD pj default) =
      some (d.backing.set pi (d.backing.getD pj default)) :=
    goWrite_nat d.backing pi _ hpib
  have hstep3 : goWrite (d.backing.set pi (d.backing.getD pj default))
      ((pj : Nat) : ℤ) (d.backing.getD pi default) = some b2 :=
    goWrite_nat _ pj _ (by rw [List.length_set]; exact hpjb)
  have hcomp : d.swapAt (i : ℤ) (j : ℤ) = some ⟨d.len, d.head, b2⟩ := by
    rw [hstep1, hstep2, Option.some_bind, hstep3, Option.some_bind]
  have hlb2 : b2.length = d.backing.length := by
    simp [hb2]
  have hlogr : ∀ k, k < d.len →
      (⟨d.len, d.head, b2⟩ : Deque T).logical.getD k default =
        b2.getD ((d.head + k) % d.cap) default := by
    intro k hk
    rw [logical_getD (⟨d.len, d.head, b2⟩ : Deque T) hk]
    show b2.getD ((d.head + k) % b2.length) default = _
    rw [hlb2]
    rfl
  refine ⟨⟨d.len, d.head, b2⟩, hcomp, rfl, ?_, rfl, ?_, ?_, ?_⟩
  · show b2.length = d.backing.length
    exact hlb2
  · -- logical at i picks up the old element at j
    rw [hlogr i hi, logical_getD d hj]
    show b2.getD pi default = d.backing.getD pj default
    by_cases hij : pi = pj
    · rw [hb2, ← hij, getD_set_self (by simpa using hpib) _ default, hij]
    · rw [hb2, getD_set_ne (fun h => hij h.symm) _ default,
        getD_set_self hpib _ default]
  · -- logical at j picks up the old element at i
    rw [hlogr j hj, logical_getD d hi]
    show b2.getD pj default = d.backing.getD pi default
    rw [hb2, getD_set_self (by simpa using hpjb) _ default]
  · intro k hk hki hkj
    rw [hlogr k hk, logical_getD d hk]
    show b2.getD ((d.head + k) % d.cap) default =
      d.backing.getD ((d.head + k) % d.cap) default
    have hicap : i < d.cap := by omega
    have hjcap : j < d.cap := by omega
    have hkcap : k < d.cap := by omega
    have hknepi : (d.head + k) % d.cap ≠ pi := by
      intro heq
      exact hki (head_mod_inj hhead hkcap hicap heq)
    have hknepj : (d.head + k) % d.cap ≠ pj := by
      intro heq
      exact hkj (head_mod_inj hhead hkcap hjcap heq)
    rw [hb2, getD_set_ne (fun h => hknepj h.symm) _ default,
      getD_set_ne (fun h => hknepi h.symm) _ default]


/-! ### Operation sequences -/

theorem logical_of_len_zero (d : Deque T) (h : d.len = 0) : d.logical = [] := by
  have := length_logical d
  rw [h] at this
  exact List.length_eq_zero.mp this

/-- Each differential-test operation on the deque simulates the corresponding
reference-list operation. -/
theorem dequeStep_sim (d : Deque T) (hd : d.Inv) (op : DOp T) :
    (dequeStep d op).Inv ∧ (dequeStep d op).logical = refStep d.logical op := by
  cases op with
  | pushFront t =>
    obtain ⟨h1, -, h3, -⟩ := pushHead_spec d t hd
    exact ⟨h1, h3⟩
  | pushBack t =>
    obtain ⟨h1, -, h3, -⟩ := pushTail_spec d t hd
    exact ⟨h1, h3⟩
  | removeFront =>
    by_cases h : 1 ≤ d.len
    · obtain ⟨-, h2, -, h4, -⟩ := popHead_spec d hd h
      exact ⟨h2, h4⟩
    · have h0 : d.len = 0 := by omega
      show (d.popHead.2).Inv ∧ (d.popHead.2).logical = d.logical.tail
      rw [popHead_empty d h0, logical_of_len_zero d h0]
      exact ⟨hd, rfl⟩
  | removeBack =>
    by_cases h : 1 ≤ d.len
    · obtain ⟨-, h2, -, h4, -⟩ := popTail_spec d hd h
      exact ⟨h2, h4⟩
    · have h0 : d.len = 0 := by omega
      show (d.popTail.2).Inv ∧ (d.popTail.2).logical = d.logical.dropLast
      rw [popTail_empty d h0, logical_of_len_zero d h0]
      exact ⟨hd, rfl⟩

/-- Running any operation sequence from the empty deque keeps the invariant
and tracks the reference model exactly. -/
theorem runDeque_sim (ops : List (DOp T)) :
    (runDeque ops).Inv ∧ (runDeque ops).logical = runRef ops := by
  suffices h : ∀ (d : Deque T) (l : List T), d.Inv → d.logical = l →
      (ops.foldl dequeStep d).Inv ∧
        (ops.foldl dequeStep d).logical = ops.foldl refStep l by
    exact h Deque.empty [] empty_Inv logical_empty
  induction ops with
  | nil =>
    intro d l hd hl
    exact ⟨hd, by simpa using hl⟩
  | cons op rest ih =>
    intro d l hd hl
    obtain ⟨h1, h2⟩ := dequeStep_sim d hd op
    simp only [List.foldl_cons]
    exact ih _ _ h1 (by rw [h2, hl])

/-- Each full-alphabet operation preserves the invariant, and every operation
except `Clip` never decreases the capacity. -/
theorem fullStep_spec (d : Deque T) (hd : d.Inv) (op : FullOp T) :
    (fullStep d op).Inv ∧ (op ≠ FullOp.clip → d.cap ≤ (fullStep d op).cap) := by
  cases op with
  | pushFront t =>
    obtain ⟨h1, -, -, h4⟩ := pushHead_spec d t hd
    exact ⟨h1, fun _ => h4⟩
  | pushBack t =>
    obtain ⟨h1, -, -, h4⟩ := pushTail_spec d t hd
    exact ⟨h1, fun _ => h4⟩
  | removeFront =>
    by_cases h : 1 ≤ d.len
    · obtain ⟨-, h2, -, -, h5⟩ := popHead_spec d hd h
      exact ⟨h2, fun _ => le_of_eq h5.symm⟩
    · have h0 : d.len = 0 := by omega
      show (d.popHead.2).Inv ∧
        ((FullOp.removeFront : FullOp T) ≠ FullOp.clip → d.cap ≤ (d.popHead.2).cap)
      rw [popHead_empty d h0]
      exact ⟨hd, fun _ => le_refl _⟩
  | removeBack =>
    by_cases h : 1 ≤ d.len
    · obtain ⟨-, h2, -, -, h5⟩ := popTail_spec d hd h
      exact ⟨h2, fun _ => le_of_eq h5.symm⟩
    · have h0 : d.len = 0 := by omega
      show (d.popTail.2).Inv ∧
        ((FullOp.removeBack : FullOp T) ≠ FullOp.clip → d.cap ≤ (d.popTail.2).cap)
      rw [popTail_empty d h0]
      exact ⟨hd, fun _ => le_refl _⟩
  | growBy n =>
    obtain ⟨h1, -, -, -, h5, -⟩ := grow_spec d n hd
    exact ⟨h1, fun _ => h5⟩
  | clip =>
    obtain ⟨h1, -, -, -⟩ := shrink_spec d hd
    exact ⟨h1, fun hne => absurd rfl hne⟩

theorem runFull_Inv (ops : List (FullOp T)) : (runFull ops).Inv := by
  suffices h : ∀ d : Deque T, d.Inv → (ops.foldl fullStep d).Inv by
    exact h Deque.empty empty_Inv
  induction ops with
  | nil => exact fun d hd => hd
  | cons op rest ih =>
    intro d hd
    simp only [List.foldl_cons]
    exact ih _ (fullStep_spec d hd op).1

/-- Pushing while free capacity remains never reallocates: the capacity is
untouched and the length grows by exactly the number of pushes. -/
theorem applyPushes_spec (ps : List (PushOp T)) : ∀ d : Deque T, d.Inv →
    d.len + ps.length ≤ d.cap →
    (applyPushes d ps).cap = d.cap ∧
      (applyPushes d ps).len = d.len + ps.length ∧ (applyPushes d ps).Inv := by
  induction ps with
  | nil =>
    intro d hd hle
    exact ⟨rfl, by simp [applyPushes], hd⟩
  | cons p rest ih =>
    intro d hd hle
    simp only [List.length_cons] at hle
    have hfree : d.len + 1 ≤ d.cap := by omega
    have hgrow : d.grow 1 = d := grow_eq_of_le d 1 hfree
    have hstep : (pushStep d p).cap = d.cap ∧ (pushStep d p).len = d.len + 1 ∧
        (pushStep d p).Inv := by
      cases p with
      | front t =>
        obtain ⟨h1, h2, -, -⟩ := pushHead_spec d t hd
        refine ⟨?_, h2, h1⟩
        show (d.pushHead t).cap = d.cap
        unfold Deque.pushHead
        rw [hgrow]
        show (d.backing.set _ t).length = d.backing.length
        simp
      | back t =>
        obtain ⟨h1, h2, -, -⟩ := pushTail_spec d t hd
        refine ⟨?_, h2, h1⟩
        show (d.pushTail t).cap = d.cap
        unfold Deque.pushTail
        rw [hgrow]
        show (d.backing.set _ t).length = d.backing.length
        simp
    obtain ⟨hc, hl, hi⟩ := hstep
    obtain ⟨r1, r2, r3⟩ := ih (pushStep d p) hi (by rw [hl, hc]; omega)
    refine ⟨?_, ?_, r3⟩
    · show (applyPushes (pushStep d p) rest).cap = d.cap
      rw [r1, hc]
    · show (applyPushes (pushStep d p) rest).len = d.len + (rest.length + 1)
      rw [r2, hl]
      omega


/-! ## Claim theorems -/

/-- C1: for every sequence of PushFront/PushBack/RemoveFront/RemoveBack
operations applied to an initially empty deque, the resulting logical
contents, as returned by both `Items` (ToSequence) and `Slice`, equal those of
the functional-list reference model driven by the same operation sequence,
where PushFront prepends, PushBack appends, and RemoveFront/RemoveBack remove
the first/last element. -/
theorem C1_reference_equivalence (ops : List (DOp T)) :
    (runDeque ops).Items = runRef ops ∧ (runDeque ops).Slice = runRef ops := by
  obtain ⟨h1, h2⟩ := runDeque_sim ops
  exact ⟨by rw [Items_eq_logical _ h1, h2], by rw [Slice_eq, h2]⟩

/-- C2: `Grow(n)` leaves the logical contents (`Items`/ToSequence) unchanged,
afterwards capacity minus length is at least `n`, whenever it reallocates the
head is reset to 0 (otherwise the deque is untouched), and any sequence of at
most `n` subsequent pushes leaves the capacity unchanged (no reallocation). -/
theorem C2_grow (d : Deque T) (n : Nat) (hd : d.Inv) (ps : List (PushOp T))
    (hps : ps.length ≤ n) :
    (d.grow n).Items = d.Items ∧
      (d.grow n).len + n ≤ (d.grow n).cap ∧
      (d.grow n = d ∨ (d.grow n).head = 0) ∧
      (applyPushes (d.grow n) ps).cap = (d.grow n).cap := by
  obtain ⟨h1, h2, h3, h4, h5, h6⟩ := grow_spec d n hd
  refine ⟨by rw [Items_eq_logical _ h1, h3, Items_eq_logical d hd],
    by omega, h6, ?_⟩
  exact (applyPushes_spec ps _ h1 (by omega)).1

/-- C2 witness: growing a one-element deque by 2 and then pushing twice. -/
theorem C2_grow_witness :
    ((Deque.ofList [(5 : ℤ)]).grow 2).Items = (Deque.ofList [(5 : ℤ)]).Items ∧
      ((Deque.ofList [(5 : ℤ)]).grow 2).len + 2 ≤
        ((Deque.ofList [(5 : ℤ)]).grow 2).cap ∧
      ((Deque.ofList [(5 : ℤ)]).grow 2 = Deque.ofList [(5 : ℤ)] ∨
        ((Deque.ofList [(5 : ℤ)]).grow 2).head = 0) ∧
      (applyPushes ((Deque.ofList [(5 : ℤ)]).grow 2)
          [PushOp.back 7, PushOp.front 6]).cap =
        ((Deque.ofList [(5 : ℤ)]).grow 2).cap :=
  C2_grow (Deque.ofList [(5 : ℤ)]) 2 (by decide)
    [PushOp.back 7, PushOp.front 6] (by decide)

/-- C3 (evaluation at the failing input): on the deque `[10, 20]` of length 2,
the sortable adapter's `Less(2, 0)` with the out-of-range index 2 does not
panic: it silently wraps 2 to physical index `(0+2) mod 2 = 0` and compares
element 0 with itself, returning `false`; likewise `Swap(2, 1)` silently swaps
logical positions 0 and 1.  The claim (and the spec's strict-bounds intent)
requires a fail-fast panic instead. -/
theorem C3_sortable_wraps_eval :
    (Deque.ofList [(10 : ℤ), 20]).len = 2 ∧
      (Deque.ofList [(10 : ℤ), 20]).less 2 0 = some false ∧
      ((Deque.ofList [(10 : ℤ), 20]).swapAt 2 1).map (fun d => d.Slice) =
        some [20, 10] := by decide

/-- C4: after any sequence of operations starting from a newly constructed
deque (`Make`/`Of` are `Grow`/pushes on the zero value, so they are covered by
sequences of the full alphabet), `0 ≤ length ≤ capacity` holds (`length` is a
natural number in the model; it is never decremented below 0 because both pops
check emptiness first), and no single operation except an explicit `Clip`
decreases the capacity. -/
theorem C4_invariants (ops : List (FullOp T)) (d : Deque T) (op : FullOp T)
    (hd : d.Inv) (hop : op ≠ FullOp.clip) :
    (runFull ops).len ≤ (runFull ops).cap ∧ d.cap ≤ (fullStep d op).cap :=
  ⟨(runFull_Inv ops).1, (fullStep_spec d hd op).2 hop⟩

/-- C4 witness: a concrete three-operation run, and `Grow(4)` on a one-element
deque not decreasing capacity. -/
theorem C4_invariants_witness :
    (runFull [FullOp.pushBack (1 : ℤ), FullOp.pushFront 2,
        FullOp.removeBack]).len ≤
      (runFull [FullOp.pushBack (1 : ℤ), FullOp.pushFront 2,
        FullOp.removeBack]).cap ∧
      (Deque.ofList [(3 : ℤ)]).cap ≤
        (fullStep (Deque.ofList [(3 : ℤ)]) (FullOp.growBy 4)).cap :=
  C4_invariants [FullOp.pushBack (1 : ℤ), FullOp.pushFront 2,
    FullOp.removeBack] (Deque.ofList [(3 : ℤ)]) (FullOp.growBy 4)
    (by decide) (by decide)

/-- C5: `At(n)` reports found=false exactly when `n < 0` or `n ≥ length`, and
otherwise returns the element at logical index `n` with found=true; the
physical index it reads for an in-range `n` is within the backing array (so no
panic is possible); `Front`, `Back`, `RemoveFront` and `RemoveBack` report the
zero value and found=false on an empty deque, and the front/back element with
found=true otherwise. -/
theorem C5_not_found (d : Deque T) (hd : d.Inv) (n : ℤ) :
    ((d.atVal n).2 = false ↔ (n < 0 ∨ (d.len : ℤ) ≤ n)) ∧
      (d.atVal n = if 0 ≤ n ∧ n < (d.len : ℤ) then
        (d.logical.getD n.toNat default, true) else (default, false)) ∧
      (0 ≤ n → n < (d.len : ℤ) →
        0 ≤ d.atIndex n ∧ d.atIndex n < (d.cap : ℤ)) ∧
      (d.front = if d.len = 0 then (default, false)
        else (d.logical.getD 0 default, true)) ∧
      (d.back = if d.len = 0 then (default, false)
        else (d.logical.getD (d.len - 1) default, true)) ∧
      ((d.popHead).1 = if d.len = 0 then (default, false)
        else (d.logical.getD 0 default, true)) ∧
      ((d.popTail).1 = if d.len = 0 then (default, false)
        else (d.logical.getD (d.len - 1) default, true)) := by
  refine ⟨?_, atVal_spec d n,
    fun h1 h2 => atIndex_in_range d hd n h1 h2, ?_, ?_, ?_, ?_⟩
  · rw [atVal_spec d n]
    by_cases hin : 0 ≤ n ∧ n < (d.len : ℤ)
    · rw [if_pos hin]
      constructor
      · intro h
        exact absurd (show (true : Bool) = false from h) (by decide)
      · intro h
        exact absurd h (by omega)
    · rw [if_neg hin]
      constructor
      · intro h
        omega
      · intro h
        rfl
  · by_cases h0 : d.len = 0
    · rw [if_pos h0]
      unfold Deque.front
      rw [if_pos (by omega)]
    · rw [if_neg h0]
      exact front_spec d hd (by omega)
  · by_cases h0 : d.len = 0
    · rw [if_pos h0]
      unfold Deque.back
      rw [if_pos (by omega)]
    · rw [if_neg h0]
      exact back_spec d hd (by omega)
  · by_cases h0 : d.len = 0
    · rw [if_pos h0, popHead_empty d h0]
    · rw [if_neg h0]
      exact (popHead_spec d hd (by omega)).1
  · by_cases h0 : d.len = 0
    · rw [if_pos h0, popTail_empty d h0]
    · rw [if_neg h0]
      exact (popTail_spec d hd (by omega)).1

/-- C5 witness: probing index 5 (out of range) and index 1 on `[7, 8]`. -/
theorem C5_not_found_witness :
    ((Deque.ofList [(7 : ℤ), 8]).atVal 5).2 = false ∧
      (Deque.ofList [(7 : ℤ), 8]).atVal 1 = (8, true) ∧
      (Deque.ofList [(7 : ℤ), 8]).front = (7, true) := by
  have h5 := C5_not_found (Deque.ofList [(7 : ℤ), 8]) (by decide) 5
  have h1 := C5_not_found (Deque.ofList [(7 : ℤ), 8]) (by decide) 1
  refine ⟨h5.1.mpr (by decide), ?_, ?_⟩
  · rw [h1.2.1]
    decide
  · rw [h1.2.2.2.1]
    decide


/-- C6: for indices `i, j` in `[0, length)`, the sortable adapter's
`Swap(i, j)` succeeds and exchanges the logical elements at `i` and `j`,
leaving length, capacity, and the logical element at any other in-range
position `k` unchanged. -/
theorem C6_swap (d : Deque T) (hd : d.Inv) (i j k : Nat) (hi : i < d.len)
    (hj : j < d.len) (hk : k < d.len) (hki : k ≠ i) (hkj : k ≠ j) :
    (d.swapAt (i : ℤ) (j : ℤ)).isSome = true ∧
      ((d.swapAt (i : ℤ) (j : ℤ)).getD d).len = d.len ∧
      ((d.swapAt (i : ℤ) (j : ℤ)).getD d).cap = d.cap ∧
      ((d.swapAt (i : ℤ) (j : ℤ)).getD d).logical.getD i default =
        d.logical.getD j default ∧
      ((d.swapAt (i : ℤ) (j : ℤ)).getD d).logical.getD j default =
        d.logical.getD i default ∧
      ((d.swapAt (i : ℤ) (j : ℤ)).getD d).logical.getD k default =
        d.logical.getD k default := by
  obtain ⟨d', hsome, hlen, hcap, hhd, hij, hji, hother⟩ :=
    swapAt_spec d hd i j hi hj
  rw [hsome]
  simp only [Option.getD_some, Option.isSome_some]
  exact ⟨trivial, hlen, hcap, hij, hji, hother k hk hki hkj⟩

/-- C6 witness: swapping positions 0 and 2 of `[30, 10, 20]`. -/
theorem C6_swap_witness :
    ((Deque.ofList [(30 : ℤ), 10, 20]).swapAt ((0 : Nat) : ℤ)
        ((2 : Nat) : ℤ)).isSome = true ∧
      (((Deque.ofList [(30 : ℤ), 10, 20]).swapAt ((0 : Nat) : ℤ)
        ((2 : Nat) : ℤ)).getD (Deque.ofList [(30 : ℤ), 10, 20])).len =
        (Deque.ofList [(30 : ℤ), 10, 20]).len ∧
      (((Deque.ofList [(30 : ℤ), 10, 20]).swapAt ((0 : Nat) : ℤ)
        ((2 : Nat) : ℤ)).getD (Deque.ofList [(30 : ℤ), 10, 20])).cap =
        (Deque.ofList [(30 : ℤ), 10, 20]).cap ∧
      (((Deque.ofList [(30 : ℤ), 10, 20]).swapAt ((0 : Nat) : ℤ)
        ((2 : Nat) : ℤ)).getD
          (Deque.ofList [(30 : ℤ), 10, 20])).logical.getD 0 default =
        (Deque.ofList [(30 : ℤ), 10, 20]).logical.getD 2 default ∧
      (((Deque.ofList [(30 : ℤ), 10, 20]).swapAt ((0 : Nat) : ℤ)
        ((2 : Nat) : ℤ)).getD
          (Deque.ofList [(30 : ℤ), 10, 20])).logical.getD 2 default =
        (Deque.ofList [(30 : ℤ), 10, 20]).logical.getD 0 default ∧
      (((Deque.ofList [(30 : ℤ), 10, 20]).swapAt ((0 : Nat) : ℤ)
        ((2 : Nat) : ℤ)).getD
          (Deque.ofList [(30 : ℤ), 10, 20])).logical.getD 1 default =
        (Deque.ofList [(30 : ℤ), 10, 20]).logical.getD 1 default :=
  C6_swap (Deque.ofList [(30 : ℤ), 10, 20]) (by decide) 0 2 1 (by decide)
    (by decide) (by decide) (by decide) (by decide)

/-- C7: after `Clip` (Shrink) the capacity equals the length, the logical
contents are unchanged, and a second `Clip` is a no-op, so two clips yield the
same capacity as one. -/
theorem C7_clip (d : Deque T) (hd : d.Inv) :
    (d.shrink).cap = (d.shrink).len ∧ (d.shrink).cap = d.len ∧
      (d.shrink).Items = d.Items ∧ d.shrink.shrink = d.shrink := by
  obtain ⟨hinv, hlen, hcap, hlog⟩ := shrink_spec d hd
  refine ⟨by rw [hcap, hlen], hcap, ?_,
    shrink_of_cap_eq _ (by rw [hcap, hlen])⟩
  rw [Items_eq_logical _ hinv, hlog, Items_eq_logical d hd]

/-- C7 witness: clipping the two-element wrap state left by one pop. -/
theorem C7_clip_witness :
    ((Deque.ofList [(1 : ℤ), 2, 3]).popHead.2.shrink).cap =
      ((Deque.ofList [(1 : ℤ), 2, 3]).popHead.2.shrink).len ∧
      ((Deque.ofList [(1 : ℤ), 2, 3]).popHead.2.shrink).cap =
        (Deque.ofList [(1 : ℤ), 2, 3]).popHead.2.len ∧
      ((Deque.ofList [(1 : ℤ), 2, 3]).popHead.2.shrink).Items =
        (Deque.ofList [(1 : ℤ), 2, 3]).popHead.2.Items ∧
      (Deque.ofList [(1 : ℤ), 2, 3]).popHead.2.shrink.shrink =
        (Deque.ofList [(1 : ℤ), 2, 3]).popHead.2.shrink :=
  C7_clip (Deque.ofList [(1 : ℤ), 2, 3]).popHead.2 (by decide)

/-- C8: `Of(items...)` (grow once, then push each item at the back) yields a
deque whose logical contents equal `items`; hence rebuilding a deque from
`Items()`/ToSequence by sequential push-back reproduces the same
`Items()`/`Slice` output. -/
theorem C8_roundtrip (items : List T) (d : Deque T) :
    (Deque.ofList items).Slice = items ∧ (Deque.ofList items).Items = items ∧
      (Deque.ofList d.Items).Items = d.Items := by
  have key : ∀ l : List T, (Deque.ofList l).Slice = l ∧
      (Deque.ofList l).Items = l := by
    intro l
    obtain ⟨hinv, hlog⟩ := ofList_spec l
    exact ⟨by rw [Slice_eq, hlog], by rw [Items_eq_logical _ hinv, hlog]⟩
  exact ⟨(key items).1, (key items).2, (key d.Items).2⟩

/-- C8 witness: building from `[4, 5]`, and round-tripping a wrapped deque. -/
theorem C8_roundtrip_witness :
    (Deque.ofList [(4 : ℤ), 5]).Slice = [4, 5] ∧
      (Deque.ofList [(4 : ℤ), 5]).Items = [4, 5] ∧
      (Deque.ofList ((Deque.ofList [(1 : ℤ), 2, 3]).popHead.2.pushTail 9).Items).Items =
        ((Deque.ofList [(1 : ℤ), 2, 3]).popHead.2.pushTail 9).Items :=
  C8_roundtrip [(4 : ℤ), 5] ((Deque.ofList [(1 : ℤ), 2, 3]).popHead.2.pushTail 9)

/-- C9: the forward traversal `All()` yields exactly the pairs `(i, At(i))`
for `i` from 0 to `length - 1` in increasing order, and the reverse traversal
yields exactly the same pairs in decreasing index order. -/
theorem C9_traversal (d : Deque T) :
    d.All = (List.range d.len).map (fun (i : Nat) => (i, (d.atVal (i : ℤ)).1)) ∧
      d.ReverseItems =
        ((List.range d.len).map (fun (i : Nat) => (i, (d.atVal (i : ℤ)).1))).reverse := by
  have hmap : (List.range d.len).map (fun j => (j, d.logical.getD j default)) =
      (List.range d.len).map (fun (i : Nat) => (i, (d.atVal (i : ℤ)).1)) := by
    apply List.map_congr_left
    intro j hj
    rw [List.mem_range] at hj
    rw [atVal_spec d (j : ℤ),
      if_pos ⟨by positivity, by exact_mod_cast hj⟩]
    rw [Int.toNat_natCast]

  exact ⟨by rw [All_spec d, hmap], by rw [ReverseItems_spec d, hmap]⟩

/-- C10: `PopHead`/`PopTail` (RemoveFront/RemoveBack) on a length-0 deque
return the zero value of the element type with found=false and leave the
entire deque state (length, head and backing array) unchanged. -/
theorem C10_pop_empty (d : Deque T) (h : d.len = 0) :
    d.popHead = ((default, false), d) ∧ d.popTail = ((default, false), d) :=
  ⟨popHead_empty d h, popTail_empty d h⟩

/-- C10 witness: popping a freshly made empty deque with capacity 3. -/
theorem C10_pop_empty_witness :
    (Deque.make 3 : Deque ℤ).popHead = ((0, false), Deque.make 3) ∧
      (Deque.make 3 : Deque ℤ).popTail = ((0, false), Deque.make 3) :=
  C10_pop_empty (Deque.make 3) (by decide)


end DequeSpec
